import Mathlib

/-!
Verification of the repository integrity checker (`src/checker/checker.go`)
of a content-addressed backup system, against its natural-language
specification.

The Go code is shallowly embedded: content identifiers (`backend.ID`,
32-byte hashes compared by value) become `Nat`; Go maps with numeric
values (`blobRefs.M : map[backend.ID]uint`, where reading a missing key
yields `0` and `m[k]++` inserts the key) become association lists with a
defaulting getter; Go map-based sets (`c.packs`, `c.blobs`) become
`Finset`; the concurrent pipeline of `Structure` is modelled as a
sequential worklist whose per-entry effects (one load, one delivery, one
reference-count increment per backlog occurrence) match the pipeline's,
since the claims proved below are counts and invariants that do not
depend on the interleaving of the worker pools.
-/

set_option autoImplicit false

namespace RepoChecker

/-- Content identifier (`backend.ID`): an opaque value compared by
equality, embedded as `Nat`. -/
abbrev ID := Nat

/-! ## Go map with numeric values (`blobRefs.M : map[backend.ID]uint`)

Embedded as an association list with at most one entry per key.
`rget` is Go map indexing (missing key reads as `0`), `rincr` is
`m[k]++` (which inserts the key when missing), `rset0` is `m[k] = 0`,
and `rmem` is the two-result lookup `_, ok := m[k]`. -/

/-- Go map with `ID` keys and natural-number values. -/
abbrev RefMap := List (ID × Nat)

/-- Lookup of a key in a `RefMap`. -/
def rlook : RefMap → ID → Option Nat
  | [], _ => none
  | (k, v) :: rest, x => if x = k then some v else rlook rest x

/-- Go map read `m[k]`: the stored value, or `0` when the key is absent. -/
def rget (m : RefMap) (x : ID) : Nat :=
  (rlook m x).getD 0

/-- Go key-presence test `_, ok := m[k]`. -/
def rmem (m : RefMap) (x : ID) : Bool :=
  (rlook m x).isSome

/-- Go `m[k]++`: increment the stored value, inserting the key with
value `1` when it is absent (since a missing key reads as `0`). -/
def rincr : RefMap → ID → RefMap
  | [], k => [(k, 1)]
  | (k', v) :: rest, k => if k = k' then (k', v + 1) :: rest else (k', v) :: rincr rest k

/-- Go `m[k] = 0`: store `0` under the key, inserting it when absent. -/
def rset0 : RefMap → ID → RefMap
  | [], k => [(k, 0)]
  | (k', v) :: rest, k => if k = k' then (k', 0) :: rest else (k', v) :: rset0 rest k

theorem rget_rincr_self (m : RefMap) (k : ID) : rget (rincr m k) k = rget m k + 1 := by
  induction m with
  | nil => simp [rincr, rget, rlook]
  | cons p rest ih =>
    obtain ⟨k', v⟩ := p
    by_cases h : k = k'
    · subst h
      simp [rincr, rget, rlook]
    · simpa [rincr, rget, rlook, h] using ih

theorem rget_rincr_other (m : RefMap) (k x : ID) (hx : x ≠ k) :
    rget (rincr m k) x = rget m x := by
  induction m with
  | nil => simp [rincr, rget, rlook, hx]
  | cons p rest ih =>
    obtain ⟨k', v⟩ := p
    by_cases h : k = k'
    · subst h
      simp [rincr, rget, rlook, hx]
    · by_cases h2 : x = k'
      · subst h2
        simp [rincr, rget, rlook, h]
      · simpa [rincr, rget, rlook, h, h2] using ih

theorem rget_rincr_le (m : RefMap) (k x : ID) : rget m x ≤ rget (rincr m k) x := by
  by_cases h : x = k
  · subst h
    rw [rget_rincr_self]
    exact Nat.le_succ _
  · rw [rget_rincr_other m k x h]

theorem rget_foldl_rincr_le (bs : List ID) (m : RefMap) (x : ID) :
    rget m x ≤ rget (bs.foldl rincr m) x := by
  induction bs generalizing m with
  | nil => simp
  | cons b rest ih => exact Nat.le_trans (rget_rincr_le m b x) (ih (rincr m b))

theorem rmem_rincr_self (m : RefMap) (k : ID) : rmem (rincr m k) k = true := by
  induction m with
  | nil => simp [rincr, rmem, rlook]
  | cons p rest ih =>
    obtain ⟨k', v⟩ := p
    by_cases h : k = k'
    · subst h
      simp [rincr, rmem, rlook]
    · simpa [rincr, rmem, rlook, h] using ih

theorem rmem_rset0 (m : RefMap) (k x : ID) :
    rmem (rset0 m k) x = true ↔ x = k ∨ rmem m x = true := by
  induction m with
  | nil =>
    constructor
    · intro h
      by_cases hx : x = k
      · exact Or.inl hx
      · simp [rset0, rmem, rlook, hx] at h
    · intro h
      rcases h with h | h
      · subst h
        simp [rset0, rmem, rlook]
      · simp [rmem, rlook] at h
  | cons p rest ih =>
    obtain ⟨k', v⟩ := p
    by_cases h : k = k'
    · subst h
      by_cases h2 : x = k
      · subst h2
        simp [rset0, rmem, rlook]
      · simp [rset0, rmem, rlook, h2]
    · by_cases h2 : x = k'
      · subst h2
        simp [rset0, rmem, rlook, h]
      · simpa [rset0, rmem, rlook, h, h2] using ih

theorem rget_rset0 (m : RefMap) (k x : ID) :
    rget (rset0 m k) x = if x = k then 0 else rget m x := by
  induction m with
  | nil =>
    by_cases hx : x = k
    · simp [rset0, rget, rlook, hx]
    · simp [rset0, rget, rlook, hx]
  | cons p rest ih =>
    obtain ⟨k', v⟩ := p
    by_cases h : k = k'
    · subst h
      by_cases h2 : x = k
      · subst h2
        simp [rset0, rget, rlook]
      · simp [rset0, rget, rlook, h2]
    · by_cases h2 : x = k'
      · subst h2
        simp [rset0, rget, rlook, h, Ne.symm h]
      · simpa [rset0, rget, rlook, h, h2] using ih

/-! ## Trees (`restic.Node`, `restic.Tree`) -/

/-- Tree node as consumed by the checker (`restic.Node`): a `Type`
string (`"file"`, `"dir"`, or other), the content blob IDs of a file
node (`Content []backend.ID`), and the optional subtree ID of a dir
node (`Subtree *backend.ID`). -/
structure Node where
  type : String
  content : List ID
  subtree : Option ID
deriving DecidableEq, Repr

/-- Tree (`restic.Tree`): its node list (`Nodes`). -/
abbrev Tree := List Node

/-- Modelled from the spec: `restic.Tree.Subtrees` is not under `src/`;
the spec describes it as the "ordered sequence of subtree ContentIDs
from all dir nodes". -/
def subtreesOf (t : Tree) : List ID :=
  t.filterMap (fun n => if n.type = "dir" then n.subtree else none)

/-- Structure-check error (`checker.Error`): optional tree ID, optional
blob ID, and the message. The two ID fields are `*backend.ID` in the
source; the model records the values they are observed to hold once
`checkTree` has returned. -/
structure CError where
  treeID : Option ID
  blobID : Option ID
  msg : String
deriving DecidableEq, Repr

/-- Per-tree aggregated error (`checker.TreeError`). -/
structure TreeErr where
  id : ID
  errors : List CError
deriving DecidableEq, Repr

/-- First loop of `checkTree` (checker.go:507-517): collect the content
blob IDs of the `"file"` nodes, in node order. -/
def treeContentBlobs (t : Tree) : List ID :=
  t.foldr (fun n acc => if n.type = "file" then n.content ++ acc else acc) []

/-- Dir errors of the first loop of `checkTree` (checker.go:511-515):
one error per node whose type is `"dir"` and whose subtree pointer is
nil, carrying the node's index. -/
def dirErrors (id : ID) (t : Tree) : List CError :=
  t.enum.filterMap (fun p =>
    if p.2.type = "dir" ∧ p.2.subtree = none then
      some ⟨some id, none, "node " ++ toString p.1 ++ " is dir but has no subtree"⟩
    else none)

/-- `checkTree` (checker.go:502-533), as observed by a caller reading
the returned errors after the call: the dir errors of the first loop,
then one "not found in index" error per occurrence of a content blob
absent from `blobs`, and the reference-count map with every content
blob occurrence incremented once.

The source stores `BlobID: &blobID` where `blobID` is the range
variable of the second loop (checker.go:528). The range variable is a
single location reused across iterations, so every stored pointer
aliases it, and by the time the error list is read the location holds
the final element of the collected blob list: the model therefore
records `(treeContentBlobs tree).getLast?` as the observed blob ID of
every such error. -/
def checkTree (blobs : Finset ID) (id : ID) (tree : Tree) (refs : RefMap) :
    List CError × RefMap :=
  let bs := treeContentBlobs tree
  let refs1 := bs.foldl rincr refs
  let blobErrs := (bs.filter (fun b => ¬ b ∈ blobs)).map
    (fun _ => CError.mk (some id) bs.getLast? "not found in index")
  (dirErrors id tree ++ blobErrs, refs1)

/-- `checkTree` as the specification words it: each "not found in
index" error records the missing blob itself as its blob ID. Kept
beside the source-faithful `checkTree` to exhibit their divergence. -/
def checkTreeSpec (blobs : Finset ID) (id : ID) (tree : Tree) (refs : RefMap) :
    List CError × RefMap :=
  let bs := treeContentBlobs tree
  let refs1 := bs.foldl rincr refs
  let blobErrs := (bs.filter (fun b => ¬ b ∈ blobs)).map
    (fun b => CError.mk (some id) (some b) "not found in index")
  (dirErrors id tree ++ blobErrs, refs1)

/-- `UnusedBlobs` (checker.go:536-549): iterate `c.blobs` and keep the
IDs whose reference count reads as `0`. -/
def unusedBlobs (blobs : Finset ID) (refs : RefMap) : Finset ID :=
  blobs.filter (fun id => rget refs id = 0)

/-! ## The `Structure` pipeline

`Structure` (checker.go:471-500) wires `filterTrees` (the single
dedup/backpressure task owning the backlog), a pool of `loadTreeWorker`
and a pool of `checkTreeWorker`. Per backlog occurrence of a tree ID
the pipeline performs exactly: one `restic.LoadTree`, one append of the
loaded tree's subtree IDs to the backlog (checker.go:455), and one
delivery to a checker worker, which increments `blobRefs.M[id]` and
invokes `checkTree` only when the previous count was zero
(checker.go:374-396). The model below serialises this into a worklist
that processes the backlog front-to-back; worker-pool interleavings
only permute the delivery order of distinct occurrences, which none of
the proved counts and invariants depend on. -/

/-- Checker state touched by the `Structure` pipeline: the shared
reference-count map, the trace of tree IDs on which `checkTree` has
been invoked (in invocation order), and the emitted `TreeError`s. -/
structure SState where
  refs : RefMap
  checked : List ID
  treeErrs : List TreeErr
deriving DecidableEq, Repr

/-- One delivery to `checkTreeWorker` (checker.go:369-396): read
`blobRefs.M[id] > 0` as already-checked, increment the count, and if
not already checked run `checkTree`, emitting a `TreeError` when it
returns errors. The worker never consults the job's error field: a job
whose load failed carries no tree (`restic.LoadTree`, outside `src/`,
returns no tree on failure per the spec's `{id, tree, err}` job shape),
and `checkTree` immediately dereferences it (`tree.Nodes`,
checker.go:507) — a nil-pointer panic, modelled as `none`. -/
def checkTreeJob (blobs : Finset ID) (st : SState) (id : ID) (tree : Option Tree) :
    Option SState :=
  let already := rget st.refs id > 0
  let refs1 := rincr st.refs id
  if already then
    some { st with refs := refs1 }
  else
    match tree with
    | none => none
    | some t =>
      let res := checkTree blobs id t refs1
      some { refs := res.2
             checked := st.checked ++ [id]
             treeErrs := st.treeErrs ++ (if res.1 = [] then [] else [⟨id, res.1⟩]) }

/-- Outcome of a `Structure` run: normal completion, a panic (nil tree
dereferenced), or fuel exhaustion of the model's worklist. -/
inductive RunResult where
  | done (st : SState)
  | panicked
  | outOfFuel
deriving DecidableEq, Repr

/-- Serialised `Structure` pipeline over a backlog of tree IDs, seeded
with the snapshot root IDs. Per entry: load the tree (`load` stands for
`restic.LoadTree`, `none` = failure), append its subtree IDs to the end
of the backlog as `filterTrees` does (checker.go:455; for a failed load
the spec-modelled `subtreesOf` of an absent tree contributes nothing,
the reading most favourable to the pipeline's survival), and deliver
the job to the checker stage. `fuel` bounds the number of processed
entries, since the backlog grows during the walk. -/
def structureRun (load : ID → Option Tree) (blobs : Finset ID) :
    Nat → List ID → SState → RunResult
  | _, [], st => .done st
  | 0, _ :: _, _ => .outOfFuel
  | Nat.succ fuel, id :: backlog, st =>
    match load id with
    | none =>
      match checkTreeJob blobs st id none with
      | none => .panicked
      | some st1 => structureRun load blobs fuel backlog st1
    | some t =>
      match checkTreeJob blobs st id (some t) with
      | none => .panicked
      | some st1 => structureRun load blobs fuel (backlog ++ subtreesOf t) st1

/-! ## Dedup invariant of the checker stage -/

theorem checkTree_refs (blobs : Finset ID) (id : ID) (t : Tree) (refs : RefMap) :
    (checkTree blobs id t refs).2 = (treeContentBlobs t).foldl rincr refs := rfl

/-- Invariant preserved by every delivery: each already-checked tree ID
has a positive reference count, and the trace of checked IDs has no
duplicate. -/
def ChkInv (st : SState) : Prop :=
  (∀ i ∈ st.checked, 0 < rget st.refs i) ∧ st.checked.Nodup

theorem checkTreeJob_inv (blobs : Finset ID) (st : SState) (id : ID)
    (tree : Option Tree) (st1 : SState)
    (h : checkTreeJob blobs st id tree = some st1) (hinv : ChkInv st) : ChkInv st1 := by
  obtain ⟨hpos, hnd⟩ := hinv
  unfold checkTreeJob at h
  by_cases halready : rget st.refs id > 0
  · simp only [halready, if_pos] at h
    cases h
    exact ⟨fun i hi => Nat.lt_of_lt_of_le (hpos i hi) (rget_rincr_le st.refs id i), hnd⟩
  · simp only [halready, if_neg, if_false] at h
    cases tree with
    | none => simp at h
    | some t =>
      simp only [Option.some.injEq] at h
      subst h
      have hnotin : id ∉ st.checked := fun hmem => halready (hpos id hmem)
      refine ⟨?_, ?_⟩
      · intro i hi
        simp only [List.mem_append, List.mem_singleton] at hi
        rw [checkTree_refs]
        rcases hi with hi | hi
        · exact Nat.lt_of_lt_of_le
            (Nat.lt_of_lt_of_le (hpos i hi) (rget_rincr_le st.refs id i))
            (rget_foldl_rincr_le _ _ i)
        · subst hi
          refine Nat.lt_of_lt_of_le ?_ (rget_foldl_rincr_le _ _ i)
          rw [rget_rincr_self]
          exact Nat.succ_pos _
      · simpa [List.nodup_append] using ⟨hnd, hnotin⟩

theorem structureRun_inv (load : ID → Option Tree) (blobs : Finset ID) :
    ∀ (fuel : Nat) (backlog : List ID) (st out : SState),
      structureRun load blobs fuel backlog st = .done out → ChkInv st → ChkInv out := by
  intro fuel
  induction fuel with
  | zero =>
    intro backlog st out h hinv
    cases backlog with
    | nil =>
      simp only [structureRun, RunResult.done.injEq] at h
      subst h
      exact hinv
    | cons id rest => simp [structureRun] at h
  | succ fuel ih =>
    intro backlog st out h hinv
    cases backlog with
    | nil =>
      simp only [structureRun, RunResult.done.injEq] at h
      subst h
      exact hinv
    | cons id rest =>
      simp only [structureRun] at h
      cases hload : load id with
      | none =>
        rw [hload] at h
        cases hjob : checkTreeJob blobs st id none with
        | none => rw [hjob] at h; simp at h
        | some st1 =>
          rw [hjob] at h
          exact ih rest st1 out h (checkTreeJob_inv blobs st id none st1 hjob hinv)
      | some t =>
        rw [hload] at h
        dsimp only at h
        cases hjob : checkTreeJob blobs st id (some t) with
        | none => rw [hjob] at h; simp at h
        | some st1 =>
          rw [hjob] at h
          exact ih (rest ++ subtreesOf t) st1 out h
            (checkTreeJob_inv blobs st id (some t) st1 hjob hinv)

/-- Tree loader of the diamond scenario: snapshot roots `1`, `2`, `3`
are distinct trees each holding one dir node whose subtree is tree
`100`; tree `100` is a single childless file node. -/
def diamondLoad : ID → Option Tree := fun i =>
  if i = 100 then some [⟨"file", [], none⟩]
  else if i = 1 ∨ i = 2 ∨ i = 3 then some [⟨"dir", [], some 100⟩]
  else none

/-- Tree loader with a failing tree: loading tree `5` fails, every
other tree loads as an empty tree. -/
def failLoad : ID → Option Tree := fun i => if i = 5 then none else some []

/-- C1: in a `Structure` run, `checkTree` is invoked at most once per
tree ID even when the ID occurs several times in the walk (the trace of
checked IDs has no duplicate, for every loader, index, fuel, backlog
and initial reference map), and every delivered occurrence still
increments the reference count: in the diamond run whose three snapshot
roots all reference subtree `100`, the final count of `100` is `3`
while `checkTree` ran on `100` exactly once. -/
theorem C1_checkTree_at_most_once :
    (∀ (load : ID → Option Tree) (blobs : Finset ID) (fuel : Nat) (backlog : List ID)
        (refs0 : RefMap) (out : SState),
        structureRun load blobs fuel backlog ⟨refs0, [], []⟩ = .done out →
        out.checked.Nodup) ∧
    (∃ out : SState,
        structureRun diamondLoad ∅ 10 [1, 2, 3] ⟨[], [], []⟩ = .done out ∧
        rget out.refs 100 = 3 ∧ out.checked.count 100 = 1) := by
  constructor
  · intro load blobs fuel backlog refs0 out h
    exact (structureRun_inv load blobs fuel backlog ⟨refs0, [], []⟩ out h
      ⟨by intro i hi; simp at hi, List.nodup_nil⟩).2
  · exact ⟨⟨[(1, 1), (2, 1), (3, 1), (100, 3)], [1, 2, 3, 100], []⟩, by decide, by decide,
      by decide⟩

theorem C1_checkTree_at_most_once_witness :
    structureRun (fun _ => some []) ∅ 1 [5] ⟨[], [], []⟩ =
      .done ⟨[(5, 1)], [5], []⟩ ∧
    (SState.mk [(5, 1)] [5] []).checked.Nodup :=
  ⟨by decide, C1_checkTree_at_most_once.1 (fun _ => some []) ∅ 1 [5] []
    ⟨[(5, 1)], [5], []⟩ (by decide)⟩

/-- C2: the claim says a failed tree load is not fatal and the pipeline
continues through the backlog; on this code the run panics instead — the
checker stage never consults the job's error and dereferences the
absent tree (checker.go:390 passes `job.Tree` to `checkTree`, which
reads `tree.Nodes` at checker.go:507) — so the backlog entry `6` is
never processed. -/
theorem C2_load_failure_panics :
    structureRun failLoad ∅ 10 [5, 6] ⟨[], [], []⟩ = .panicked := by decide

/-- C3: the claim says each "not found in index" error records the
missing blob as its blob ID; on this code every such error's `BlobID`
pointer aliases the reused loop variable and is observed as the last
collected content blob. For a tree with one file node with content
`[1, 2]` and an index containing only `2`, the single error reports
blob `2` where the claim (and `checkTreeSpec`, the specification's
wording) requires blob `1`. -/
theorem C3_blobID_aliasing :
    (checkTree {2} 7 [⟨"file", [1, 2], none⟩] []).1 =
      [⟨some 7, some 2, "not found in index"⟩] ∧
    (checkTreeSpec {2} 7 [⟨"file", [1, 2], none⟩] []).1 =
      [⟨some 7, some 1, "not found in index"⟩] := by
  exact ⟨by decide, by decide⟩

/-- C4: `UnusedBlobs` returns exactly the IDs that are in `blobs` and
whose reference count reads as zero. -/
theorem C4_unusedBlobs_characterization (blobs : Finset ID) (refs : RefMap) (b : ID) :
    b ∈ unusedBlobs blobs refs ↔ b ∈ blobs ∧ rget refs b = 0 := by
  simp [unusedBlobs]

/-- C10: `checkTree` increments the reference count of a referenced
content blob before testing its index membership, so a blob absent from
`blobs` acquires a positive `blob_refs` entry (tree `7` references blob
`5` against an empty index); yet an ID outside `blobs` is never
returned by `UnusedBlobs`, which iterates only over `blobs`. -/
theorem C10_refs_outside_blobs :
    (rmem (checkTree ∅ 7 [⟨"file", [5], none⟩] []).2 5 = true ∧
     rget (checkTree ∅ 7 [⟨"file", [5], none⟩] []).2 5 = 1 ∧
     5 ∉ (∅ : Finset ID)) ∧
    (∀ (blobs : Finset ID) (refs : RefMap) (b : ID),
      b ∉ blobs → b ∉ unusedBlobs blobs refs) := by
  constructor
  · exact ⟨by decide, by decide, by decide⟩
  · intro blobs refs b hb hmem
    exact hb (Finset.mem_filter.mp hmem).1

theorem C10_refs_outside_blobs_witness :
    5 ∉ (∅ : Finset ID) ∧ 5 ∉ unusedBlobs (∅ : Finset ID) [(5, 3)] :=
  ⟨by decide, C10_refs_outside_blobs.2 ∅ [(5, 3)] 5 (by decide)⟩

/-! ## The `Packs` verifier (checker.go:140-209)

`Packs` feeds every member of `c.packs` to a pool of `packIDTester`
workers (recording each in `seenPacks`), waits for the pool, then scans
the backend's Data listing and reports every listed pack not in
`seenPacks` as orphaned. Each fed ID is probed exactly once and the
whole probe phase completes before the orphan scan; worker-pool
interleavings only permute the probe errors among themselves, so the
model emits them in feed order. `backend.Test` is an external interface
(spec §6) and is a parameter. -/

/-- Pack-check error (`checker.PackError`). -/
structure PackError where
  id : ID
  orphaned : Bool
  err : String
deriving DecidableEq, Repr

/-- One probe of `packIDTester` (checker.go:146-154): a failing probe
wraps the backend error, an absent pack yields "does not exist", a
present pack yields nothing. -/
def testPackID (test : ID → Except String Bool) (id : ID) : Option PackError :=
  match test id with
  | .error e => some ⟨id, false, e⟩
  | .ok false => some ⟨id, false, "does not exist"⟩
  | .ok true => none

/-- Probe phase of `Packs`: the errors produced by probing each fed
pack ID, in feed order. -/
def packsPhase1 (test : ID → Except String Bool) (l : List ID) : List PackError :=
  l.filterMap (testPackID test)

/-- Orphan error emitted for a backend pack in no index
(checker.go:205). -/
def orphanErr (id : ID) : PackError :=
  ⟨id, true, "not referenced in any index"⟩

/-- `Packs` (checker.go:174-209) over the iteration `packsList` of
`c.packs` and the backend Data listing: the emitted error stream and
the accumulated `c.orphanedPacks`. -/
def packsRun (test : ID → Except String Bool) (packsList listing : List ID) :
    List PackError × List ID :=
  let phase1 := packsPhase1 test packsList
  let orphans := listing.filter (fun id => ¬ id ∈ packsList)
  (phase1 ++ orphans.map orphanErr, orphans)

/-- Errors of a stream that concern pack `p`. -/
def errsFor (p : ID) (l : List PackError) : List PackError :=
  l.filter (fun e => e.id = p)

theorem testPackID_some (test : ID → Except String Bool) (q : ID) (e : PackError)
    (h : testPackID test q = some e) : e.id = q ∧ e.orphaned = false := by
  unfold testPackID at h
  cases ht : test q with
  | error s =>
    rw [ht] at h
    cases h
    exact ⟨rfl, rfl⟩
  | ok b =>
    rw [ht] at h
    cases b with
    | false =>
      cases h
      exact ⟨rfl, rfl⟩
    | true => cases h

theorem errsFor_packsPhase1_not_mem (test : ID → Except String Bool) (l : List ID)
    (p : ID) (hp : p ∉ l) : errsFor p (packsPhase1 test l) = [] := by
  induction l with
  | nil => rfl
  | cons q rest ih =>
    have hpq : p ≠ q := fun h => hp (h ▸ List.mem_cons_self q rest)
    have hprest : p ∉ rest := fun h => hp (List.mem_cons_of_mem q h)
    unfold packsPhase1 errsFor at ih ⊢
    rw [List.filterMap_cons]
    cases hq : testPackID test q with
    | none => exact ih hprest
    | some e =>
      have hid : e.id = q := (testPackID_some test q e hq).1
      rw [List.filter_cons]
      have hdec : (decide (e.id = p)) = false := by
        simp [hid]
        exact fun h => hpq h.symm
      simp only [hdec, Bool.false_eq_true, if_false]
      exact ih hprest

theorem errsFor_packsPhase1_mem (test : ID → Except String Bool) (l : List ID)
    (p : ID) (hnd : l.Nodup) (hp : p ∈ l) :
    errsFor p (packsPhase1 test l) = (testPackID test p).toList := by
  induction l with
  | nil => cases hp
  | cons q rest ih =>
    have hqrest : q ∉ rest := (List.nodup_cons.mp hnd).1
    have hndrest : rest.Nodup := (List.nodup_cons.mp hnd).2
    rcases List.mem_cons.mp hp with hpq | hprest
    · subst hpq
      unfold packsPhase1 errsFor
      rw [List.filterMap_cons]
      cases hq : testPackID test p with
      | none =>
        have := errsFor_packsPhase1_not_mem test rest p hqrest
        unfold errsFor packsPhase1 at this
        simp [hq, this]
      | some e =>
        have hid : e.id = p := (testPackID_some test p e hq).1
        have := errsFor_packsPhase1_not_mem test rest p hqrest
        unfold errsFor packsPhase1 at this
        simp [List.filter_cons, hid, this]
    · have hpq : p ≠ q := fun h => hqrest (h ▸ hprest)
      unfold packsPhase1 errsFor at ih ⊢
      rw [List.filterMap_cons]
      cases hq : testPackID test q with
      | none => exact ih hndrest hprest
      | some e =>
        have hid : e.id = q := (testPackID_some test q e hq).1
        rw [List.filter_cons]
        have hdec : (decide (e.id = p)) = false := by
          simp [hid]
          exact fun h => hpq h.symm
        simp only [hdec, Bool.false_eq_true, if_false]
        exact ih hndrest hprest

theorem errsFor_orphans (packsList listing : List ID) (p : ID) (hp : p ∈ packsList) :
    errsFor p ((listing.filter (fun id => ¬ id ∈ packsList)).map orphanErr) = [] := by
  unfold errsFor
  rw [List.filter_eq_nil_iff]
  intro e he
  rcases List.mem_map.mp he with ⟨q, hq, rfl⟩
  have hqnot : q ∉ packsList := by
    have := List.of_mem_filter hq
    simpa using this
  have : ¬ (q = p) := fun h => hqnot (h ▸ hp)
  simpa [orphanErr] using this

theorem orphanErr_injective : Function.Injective orphanErr := by
  intro a b h
  simpa [orphanErr] using h

/-- C5: every pack ID in the accumulated `OrphanedPacks` is outside the
referenced pack set and appeared in the backend Data listing, and
(given that a backend listing names each pack once) exactly one
orphaned `PackError` for it was emitted on the error stream. -/
theorem C5_orphaned_packs (test : ID → Except String Bool) (packsList listing : List ID)
    (hnd : listing.Nodup) (p : ID) (hp : p ∈ (packsRun test packsList listing).2) :
    p ∉ packsList ∧ p ∈ listing ∧
    (packsRun test packsList listing).1.count (orphanErr p) = 1 := by
  have horph : p ∈ listing.filter (fun id => ¬ id ∈ packsList) := hp
  have hpl : p ∉ packsList := by simpa using List.of_mem_filter horph
  have hpin : p ∈ listing := List.mem_of_mem_filter horph
  refine ⟨hpl, hpin, ?_⟩
  show (packsPhase1 test packsList ++
    (listing.filter (fun id => ¬ id ∈ packsList)).map orphanErr).count (orphanErr p) = 1
  rw [List.count_append]
  have h1 : (packsPhase1 test packsList).count (orphanErr p) = 0 := by
    rw [List.count_eq_zero]
    intro hmem
    rcases List.mem_filterMap.mp hmem with ⟨q, _, hq⟩
    have := (testPackID_some test q _ hq).2
    simp [orphanErr] at this
  have h2 : ((listing.filter (fun id => ¬ id ∈ packsList)).map orphanErr).count
      (orphanErr p) = 1 := by
    apply List.count_eq_one_of_mem
    · exact (hnd.filter _).map orphanErr_injective
    · exact List.mem_map_of_mem orphanErr horph
  rw [h1, h2]

theorem C5_orphaned_packs_witness :
    (2 : ID) ∉ [1] ∧ (2 : ID) ∈ [1, 2] ∧
    (packsRun (fun _ => Except.ok true) [1] [1, 2]).1.count (orphanErr 2) = 1 :=
  C5_orphaned_packs (fun _ => Except.ok true) [1] [1, 2] (by decide) 2 (by decide)

/-- C6: for a pack ID in the referenced set, the probe outcome
determines the errors emitted for it: a failing probe yields exactly
the error wrapping that failure, an absent pack yields exactly the
"does not exist" error, and a present pack yields no error at all. -/
theorem C6_referenced_pack_probe (test : ID → Except String Bool)
    (packsList listing : List ID) (hnd : packsList.Nodup) (p : ID) (hp : p ∈ packsList) :
    (∀ e, test p = .error e →
        errsFor p (packsRun test packsList listing).1 = [⟨p, false, e⟩]) ∧
    (test p = .ok false →
        errsFor p (packsRun test packsList listing).1 = [⟨p, false, "does not exist"⟩]) ∧
    (test p = .ok true → errsFor p (packsRun test packsList listing).1 = []) := by
  have key : errsFor p (packsRun test packsList listing).1 = (testPackID test p).toList := by
    show errsFor p (packsPhase1 test packsList ++
      (listing.filter (fun id => ¬ id ∈ packsList)).map orphanErr) = _
    have h1 := errsFor_packsPhase1_mem test packsList p hnd hp
    have h2 := errsFor_orphans packsList listing p hp
    unfold errsFor at h1 h2 ⊢
    rw [List.filter_append, h1, h2, List.append_nil]
  refine ⟨?_, ?_, ?_⟩
  · intro e he
    rw [key]
    simp [testPackID, he]
  · intro he
    rw [key]
    simp [testPackID, he]
  · intro he
    rw [key]
    simp [testPackID, he]

theorem C6_referenced_pack_probe_witness :
    errsFor 1 (packsRun (fun i => if i = 1 then Except.error "boom" else Except.ok true)
      [1] []).1 = [⟨1, false, "boom"⟩] :=
  (C6_referenced_pack_probe (fun i => if i = 1 then Except.error "boom" else Except.ok true)
    [1] [] (by decide) 1 (by decide)).1 "boom" rfl

/-! ## `LoadIndex` (checker.go:52-127)

The per-file worker (checker.go:62-86) loads one index via
`repository.LoadIndexWithDecoder`, handling the `ErrOldIndexFormat`
sentinel by a one-shot `repository.ConvertIndex` plus a single retried
load. The single consumer loop (checker.go:100-120) folds every
delivered index into `c.packs`, `c.blobs` and `c.blobRefs.M`. Both
repository functions are external to the checker and appear as
parameters. -/

/-- Error of an index load: the `ErrOldIndexFormat` sentinel or any
other error. -/
inductive IdxErr where
  | oldFormat
  | other (s : String)
deriving DecidableEq, Repr

/-- Index entry as consumed by the checker (`repository.PackedBlob`
iteration of `Index.Each`): the blob's ID and its pack's ID; the
remaining fields (kind, offset, length) are not read by `LoadIndex`. -/
structure IndexEntry where
  blobID : ID
  packID : ID
deriving DecidableEq, Repr

/-- In-memory index (`repository.Index`) as the checker consumes it:
the sequence of entries its `Each` iteration yields. -/
abbrev Index := List IndexEntry

/-- Instrumented run of `LoadIndex`'s per-file worker: its result, how
often it called `ConvertIndex`, and which IDs it passed to
`LoadIndexWithDecoder`, in order. -/
structure WorkerRun where
  result : Except IdxErr Index
  convertCalls : Nat
  loadCalls : List ID
deriving Repr

/-- `LoadIndex`'s per-file worker (checker.go:62-86). On the
`oldFormat` sentinel it converts once and retries the load once under
the returned ID, then returns whatever that retry yields (a second
`oldFormat` outcome included); a conversion failure is returned
directly. -/
def loadIndexWorker (loadIdx : ID → Except IdxErr Index)
    (convert : ID → Except IdxErr ID) (id : ID) : WorkerRun :=
  match loadIdx id with
  | .ok idx => ⟨.ok idx, 0, [id]⟩
  | .error .oldFormat =>
    match convert id with
    | .error e => ⟨.error e, 1, [id]⟩
    | .ok nid =>
      match loadIdx nid with
      | .ok idx => ⟨.ok idx, 1, [id, nid]⟩
      | .error e => ⟨.error e, 1, [id, nid]⟩
  | .error (.other s) => ⟨.error (.other s), 0, [id]⟩

/-- C7: when the first load of an index file returns the OldFormat
sentinel, the worker calls the conversion exactly once; if the
conversion fails, that error is returned with no retried load; if it
returns a new ID, the load is retried exactly once under that ID and
the retry's outcome — error, a second OldFormat outcome included — is
returned as-is, with no further conversion or retry. -/
theorem C7_old_format_conversion (loadIdx : ID → Except IdxErr Index)
    (convert : ID → Except IdxErr ID) (id : ID)
    (h : loadIdx id = .error .oldFormat) :
    (loadIndexWorker loadIdx convert id).convertCalls = 1 ∧
    (∀ e, convert id = .error e →
      (loadIndexWorker loadIdx convert id).result = .error e ∧
      (loadIndexWorker loadIdx convert id).loadCalls = [id]) ∧
    (∀ nid, convert id = .ok nid →
      (loadIndexWorker loadIdx convert id).loadCalls = [id, nid] ∧
      (loadIndexWorker loadIdx convert id).result = loadIdx nid) := by
  refine ⟨?_, ?_, ?_⟩
  · unfold loadIndexWorker
    rw [h]
    dsimp only
    cases hc : convert id with
    | error e => rfl
    | ok nid =>
      dsimp only
      cases hl : loadIdx nid with
      | error e2 => rfl
      | ok idx => rfl
  · intro e he
    unfold loadIndexWorker
    rw [h]
    dsimp only
    rw [he]
    exact ⟨rfl, rfl⟩
  · intro nid hn
    unfold loadIndexWorker
    rw [h]
    dsimp only
    rw [hn]
    dsimp only
    cases hl : loadIdx nid with
    | error e2 => exact ⟨rfl, rfl⟩
    | ok idx => exact ⟨rfl, rfl⟩

/-- Index loader of the witness scenario: files `1` and `2` are in the
old format, everything else loads as an empty index. -/
def wLoadIdx : ID → Except IdxErr Index := fun i =>
  if i = 1 then .error .oldFormat else if i = 2 then .error .oldFormat else .ok []

/-- Conversion of the witness scenario: always yields new ID `2`. -/
def wConvert : ID → Except IdxErr ID := fun _ => .ok 2

theorem C7_old_format_conversion_witness :
    (loadIndexWorker wLoadIdx wConvert 1).convertCalls = 1 ∧
    (loadIndexWorker wLoadIdx wConvert 1).loadCalls = [1, 2] ∧
    (loadIndexWorker wLoadIdx wConvert 1).result = .error .oldFormat := by
  have h := C7_old_format_conversion wLoadIdx wConvert 1 rfl
  have h2 := h.2.2 2 rfl
  refine ⟨h.1, h2.1, ?_⟩
  rw [h2.2]
  rfl

/-- Checker state populated by `LoadIndex`'s consumer loop
(checker.go:100-120): the referenced pack set, the indexed blob set and
the reference-count map. The `c.indexes` map and the master-index merge
(checker.go:107-108, 124) are retained only for diagnostics and tree
loading and are not consulted by any claim. -/
structure LoadState where
  packs : Finset ID
  blobs : Finset ID
  blobRefs : RefMap

/-- Per-entry body of the consumer loop (checker.go:112-117): insert
the pack ID into `c.packs`, the blob ID into `c.blobs`, and initialise
`c.blobRefs.M[blobID] = 0`. -/
def processEntry (st : LoadState) (e : IndexEntry) : LoadState :=
  { packs := insert e.packID st.packs
    blobs := insert e.blobID st.blobs
    blobRefs := rset0 st.blobRefs e.blobID }

/-- Consumption of one delivered index: fold its entries. -/
def processIndex (st : LoadState) (idx : Index) : LoadState :=
  idx.foldl processEntry st

/-- Consumer loop of `LoadIndex` over the delivered indexes, in
delivery order. -/
def loadIndexRun (idxs : List Index) (st : LoadState) : LoadState :=
  idxs.foldl processIndex st

/-- Fresh checker state (`checker.New`, checker.go:36-48). -/
def emptyLoadState : LoadState := ⟨∅, ∅, []⟩

theorem mem_packs_processIndex (idx : Index) : ∀ (st : LoadState) (x : ID),
    x ∈ (processIndex st idx).packs ↔ x ∈ st.packs ∨ ∃ en ∈ idx, en.packID = x := by
  induction idx with
  | nil =>
    intro st x
    simp [processIndex]
  | cons e rest ih =>
    intro st x
    show x ∈ (processIndex (processEntry st e) rest).packs ↔ _
    rw [ih]
    simp only [processEntry, Finset.mem_insert, List.mem_cons]
    constructor
    · rintro (h | ⟨en, hen, hx⟩)
      · rcases h with h | h
        · exact Or.inr ⟨e, Or.inl rfl, h.symm⟩
        · exact Or.inl h
      · exact Or.inr ⟨en, Or.inr hen, hx⟩
    · rintro (h | ⟨en, hen, hx⟩)
      · exact Or.inl (Or.inr h)
      · rcases hen with rfl | hen
        · exact Or.inl (Or.inl hx.symm)
        · exact Or.inr ⟨en, hen, hx⟩

theorem mem_blobs_processIndex (idx : Index) : ∀ (st : LoadState) (x : ID),
    x ∈ (processIndex st idx).blobs ↔ x ∈ st.blobs ∨ ∃ en ∈ idx, en.blobID = x := by
  induction idx with
  | nil =>
    intro st x
    simp [processIndex]
  | cons e rest ih =>
    intro st x
    show x ∈ (processIndex (processEntry st e) rest).blobs ↔ _
    rw [ih]
    simp only [processEntry, Finset.mem_insert, List.mem_cons]
    constructor
    · rintro (h | ⟨en, hen, hx⟩)
      · rcases h with h | h
        · exact Or.inr ⟨e, Or.inl rfl, h.symm⟩
        · exact Or.inl h
      · exact Or.inr ⟨en, Or.inr hen, hx⟩
    · rintro (h | ⟨en, hen, hx⟩)
      · exact Or.inl (Or.inr h)
      · rcases hen with rfl | hen
        · exact Or.inl (Or.inl hx.symm)
        · exact Or.inr ⟨en, hen, hx⟩

theorem rmem_processIndex (idx : Index) : ∀ (st : LoadState) (x : ID),
    rmem (processIndex st idx).blobRefs x = true ↔
      (∃ en ∈ idx, en.blobID = x) ∨ rmem st.blobRefs x = true := by
  induction idx with
  | nil =>
    intro st x
    simp [processIndex]
  | cons e rest ih =>
    intro st x
    show rmem (processIndex (processEntry st e) rest).blobRefs x = true ↔ _
    rw [ih]
    have : (processEntry st e).blobRefs = rset0 st.blobRefs e.blobID := rfl
    rw [this, rmem_rset0]
    simp only [List.mem_cons]
    constructor
    · rintro (⟨en, hen, hx⟩ | h | h)
      · exact Or.inl ⟨en, Or.inr hen, hx⟩
      · exact Or.inl ⟨e, Or.inl rfl, h.symm⟩
      · exact Or.inr h
    · rintro (⟨en, hen, hx⟩ | h)
      · rcases hen with rfl | hen
        · exact Or.inr (Or.inl hx.symm)
        · exact Or.inl ⟨en, hen, hx⟩
      · exact Or.inr (Or.inr h)

theorem rget_processIndex_zero (idx : Index) : ∀ (st : LoadState),
    (∀ y, rget st.blobRefs y = 0) → ∀ y, rget (processIndex st idx).blobRefs y = 0 := by
  induction idx with
  | nil =>
    intro st h y
    exact h y
  | cons e rest ih =>
    intro st h y
    show rget (processIndex (processEntry st e) rest).blobRefs y = 0
    refine ih (processEntry st e) ?_ y
    intro z
    have hpe : (processEntry st e).blobRefs = rset0 st.blobRefs e.blobID := rfl
    rw [hpe, rget_rset0]
    by_cases hz : z = e.blobID
    · simp [hz]
    · simp [hz, h z]

theorem mem_packs_loadIndexRun (idxs : List Index) : ∀ (st : LoadState) (x : ID),
    x ∈ (loadIndexRun idxs st).packs ↔
      x ∈ st.packs ∨ ∃ idx ∈ idxs, ∃ en ∈ idx, en.packID = x := by
  induction idxs with
  | nil =>
    intro st x
    simp [loadIndexRun]
  | cons idx rest ih =>
    intro st x
    show x ∈ (loadIndexRun rest (processIndex st idx)).packs ↔ _
    rw [ih, mem_packs_processIndex]
    simp only [List.mem_cons]
    constructor
    · rintro ((h | ⟨en, hen, hx⟩) | ⟨i, hi, hex⟩)
      · exact Or.inl h
      · exact Or.inr ⟨idx, Or.inl rfl, en, hen, hx⟩
      · exact Or.inr ⟨i, Or.inr hi, hex⟩
    · rintro (h | ⟨i, hi, hex⟩)
      · exact Or.inl (Or.inl h)
      · rcases hi with rfl | hi
        · exact Or.inl (Or.inr hex)
        · exact Or.inr ⟨i, hi, hex⟩

theorem mem_blobs_loadIndexRun (idxs : List Index) : ∀ (st : LoadState) (x : ID),
    x ∈ (loadIndexRun idxs st).blobs ↔
      x ∈ st.blobs ∨ ∃ idx ∈ idxs, ∃ en ∈ idx, en.blobID = x := by
  induction idxs with
  | nil =>
    intro st x
    simp [loadIndexRun]
  | cons idx rest ih =>
    intro st x
    show x ∈ (loadIndexRun rest (processIndex st idx)).blobs ↔ _
    rw [ih, mem_blobs_processIndex]
    simp only [List.mem_cons]
    constructor
    · rintro ((h | ⟨en, hen, hx⟩) | ⟨i, hi, hex⟩)
      · exact Or.inl h
      · exact Or.inr ⟨idx, Or.inl rfl, en, hen, hx⟩
      · exact Or.inr ⟨i, Or.inr hi, hex⟩
    · rintro (h | ⟨i, hi, hex⟩)
      · exact Or.inl (Or.inl h)
      · rcases hi with rfl | hi
        · exact Or.inl (Or.inr hex)
        · exact Or.inr ⟨i, hi, hex⟩

theorem rmem_loadIndexRun (idxs : List Index) : ∀ (st : LoadState) (x : ID),
    rmem (loadIndexRun idxs st).blobRefs x = true ↔
      (∃ idx ∈ idxs, ∃ en ∈ idx, en.blobID = x) ∨ rmem st.blobRefs x = true := by
  induction idxs with
  | nil =>
    intro st x
    simp [loadIndexRun]
  | cons idx rest ih =>
    intro st x
    show rmem (loadIndexRun rest (processIndex st idx)).blobRefs x = true ↔ _
    rw [ih, rmem_processIndex]
    simp only [List.mem_cons]
    constructor
    · rintro (⟨i, hi, hex⟩ | ⟨en, hen, hx⟩ | h)
      · exact Or.inl ⟨i, Or.inr hi, hex⟩
      · exact Or.inl ⟨idx, Or.inl rfl, en, hen, hx⟩
      · exact Or.inr h
    · rintro (⟨i, hi, hex⟩ | h)
      · rcases hi with rfl | hi
        · exact Or.inr (Or.inl hex)
        · exact Or.inl ⟨i, hi, hex⟩
      · exact Or.inr (Or.inr h)

theorem rget_loadIndexRun_zero (idxs : List Index) : ∀ (st : LoadState),
    (∀ y, rget st.blobRefs y = 0) → ∀ y, rget (loadIndexRun idxs st).blobRefs y = 0 := by
  induction idxs with
  | nil =>
    intro st h y
    exact h y
  | cons idx rest ih =>
    intro st h y
    exact ih (processIndex st idx) (rget_processIndex_zero idx st h) y

/-- C8: after the `LoadIndex` consumer loop runs from a fresh checker
over any delivered indexes, every key of `blob_refs` is in `blobs` and
maps to `0`, every member of `blobs` is the blob ID of some entry of
some delivered index, and every member of `packs` is the pack ID of
some entry of some delivered index. -/
theorem C8_loadIndex_invariants (idxs : List Index) :
    (∀ k, rmem (loadIndexRun idxs emptyLoadState).blobRefs k = true →
      k ∈ (loadIndexRun idxs emptyLoadState).blobs ∧
      rget (loadIndexRun idxs emptyLoadState).blobRefs k = 0) ∧
    (∀ b ∈ (loadIndexRun idxs emptyLoadState).blobs,
      ∃ idx ∈ idxs, ∃ en ∈ idx, en.blobID = b) ∧
    (∀ p ∈ (loadIndexRun idxs emptyLoadState).packs,
      ∃ idx ∈ idxs, ∃ en ∈ idx, en.packID = p) := by
  refine ⟨?_, ?_, ?_⟩
  · intro k hk
    have hex : ∃ idx ∈ idxs, ∃ en ∈ idx, en.blobID = k := by
      rcases (rmem_loadIndexRun idxs emptyLoadState k).mp hk with h | h
      · exact h
      · simp [emptyLoadState, rmem, rlook] at h
    refine ⟨?_, ?_⟩
    · rw [mem_blobs_loadIndexRun]
      exact Or.inr hex
    · exact rget_loadIndexRun_zero idxs emptyLoadState (fun y => rfl) k
  · intro b hb
    rcases (mem_blobs_loadIndexRun idxs emptyLoadState b).mp hb with h | h
    · simp [emptyLoadState] at h
    · exact h
  · intro p hp
    rcases (mem_packs_loadIndexRun idxs emptyLoadState p).mp hp with h | h
    · simp [emptyLoadState] at h
    · exact h

theorem C8_loadIndex_invariants_witness :
    (1 : ID) ∈ (loadIndexRun [[⟨1, 2⟩]] emptyLoadState).blobs ∧
    rget (loadIndexRun [[⟨1, 2⟩]] emptyLoadState).blobRefs 1 = 0 :=
  (C8_loadIndex_invariants [[⟨1, 2⟩]]).1 1 (by decide)

/-- C9: re-running the `LoadIndex` consumer from a fresh checker over
the same multiset of index files, in any delivery order, produces the
same `packs` set, the same `blobs` set, the same `blob_refs` key set,
and every `blob_refs` value equal to `0`. -/
theorem C9_loadIndex_rerun (idxs idxs2 : List Index) (hperm : idxs2.Perm idxs) :
    (loadIndexRun idxs2 emptyLoadState).packs = (loadIndexRun idxs emptyLoadState).packs ∧
    (loadIndexRun idxs2 emptyLoadState).blobs = (loadIndexRun idxs emptyLoadState).blobs ∧
    (∀ k, rmem (loadIndexRun idxs2 emptyLoadState).blobRefs k =
          rmem (loadIndexRun idxs emptyLoadState).blobRefs k) ∧
    (∀ k, rget (loadIndexRun idxs2 emptyLoadState).blobRefs k = 0 ∧
          rget (loadIndexRun idxs emptyLoadState).blobRefs k = 0) := by
  refine ⟨?_, ?_, ?_, ?_⟩
  · ext x
    rw [mem_packs_loadIndexRun, mem_packs_loadIndexRun]
    apply or_congr Iff.rfl
    constructor
    · rintro ⟨i, hi, hex⟩
      exact ⟨i, hperm.mem_iff.mp hi, hex⟩
    · rintro ⟨i, hi, hex⟩
      exact ⟨i, hperm.mem_iff.mpr hi, hex⟩
  · ext x
    rw [mem_blobs_loadIndexRun, mem_blobs_loadIndexRun]
    apply or_congr Iff.rfl
    constructor
    · rintro ⟨i, hi, hex⟩
      exact ⟨i, hperm.mem_iff.mp hi, hex⟩
    · rintro ⟨i, hi, hex⟩
      exact ⟨i, hperm.mem_iff.mpr hi, hex⟩
  · intro k
    have h2 : rmem (loadIndexRun idxs2 emptyLoadState).blobRefs k = true ↔
        rmem (loadIndexRun idxs emptyLoadState).blobRefs k = true := by
      rw [rmem_loadIndexRun, rmem_loadIndexRun]
      apply or_congr _ Iff.rfl
      constructor
      · rintro ⟨i, hi, hex⟩
        exact ⟨i, hperm.mem_iff.mp hi, hex⟩
      · rintro ⟨i, hi, hex⟩
        exact ⟨i, hperm.mem_iff.mpr hi, hex⟩
    cases hA : rmem (loadIndexRun idxs2 emptyLoadState).blobRefs k with
    | true => exact (h2.mp hA).symm
    | false =>
      cases hB : rmem (loadIndexRun idxs emptyLoadState).blobRefs k with
      | false => rfl
      | true =>
        have := h2.mpr hB
        rw [this] at hA
        exact Bool.noConfusion hA
  · intro k
    exact ⟨rget_loadIndexRun_zero idxs2 emptyLoadState (fun y => rfl) k,
      rget_loadIndexRun_zero idxs emptyLoadState (fun y => rfl) k⟩

theorem C9_loadIndex_rerun_witness :
    (loadIndexRun [[⟨3, 4⟩], [⟨1, 2⟩]] emptyLoadState).packs =
      (loadIndexRun [[⟨1, 2⟩], [⟨3, 4⟩]] emptyLoadState).packs ∧
    rget (loadIndexRun [[⟨3, 4⟩], [⟨1, 2⟩]] emptyLoadState).blobRefs 1 = 0 := by
  have h := C9_loadIndex_rerun [[⟨1, 2⟩], [⟨3, 4⟩]] [[⟨3, 4⟩], [⟨1, 2⟩]]
    (List.Perm.swap _ _ _)
  exact ⟨h.1, (h.2.2.2 1).1⟩

end RepoChecker
